import Mathlib

/-!
# Verification of the race-to-first-success core of cloudflare-ddns-C

Shallow embedding of the repository's "race-to-first-success" coordination
pattern and its IPv4 extraction helpers:

* `is_valid_ipv4`, `extract_first_ipv4` embed the scanners of
  `src/ip_utils` (the file holding `strip_noise` / `is_valid_ipv4` /
  `extract_first_ipv4`); C strings are embedded as `List Char`.
* `RaceState` / `tryClaim` embed the mutex-protected winner-claim section of
  `worker` in `src/old/src/multithreaded_ip_getter/get_public_ip_multithreaded.c`.
* `WState` / `stepW` / `stepG` / `runG` embed the per-worker retry loop and
  its interleaving with the other workers (one `stepW` step per
  atomically-observable program segment; the mutex-protected claim is one
  step, which is what makes `winner` never observable partially written).
* `PState` / `stepP` / `runP` add the pool's join loop
  (`get_public_ip_multithreaded`, the `pthread_join` loop).
* `SharedData` / `simTryClaim` / `simStep` embed the generic computation
  race of `src/old/src/multithreaded_tasks_simulator/main.c`, including the
  main thread's `while (!shared.result_written)` polling loop.

Fetch outcomes (`get_url_body`) are supplied by an oracle
`Nat → Nat → Option (List Char)` giving the raw body (or transport failure)
for worker `i`'s attempt `a`; schedules (`List Nat`) pick which worker runs
its next atomic segment, which covers every interleaving of the threads.
-/

/- ──────────────── retry/timeout policy constants (config.h) ──────────────── -/

def MAX_THREAD_GET_ATTEMPTS : Nat := 5

def THREAD_TASK_RETRY_TIME_MS : Nat := 3000

def HTTP_REQUEST_TIMEOUT_MS : Nat := 15000

/-- The simulator main thread's poll interval (5 ms, in ns). -/
def SIM_CHECK_INTERVAL_NS : Nat := 5000000

/- ──────────────────────── ip_utils: is_valid_ipv4 ──────────────────────── -/

/-- Digit value of a character, as computed by `c - '0'` in the C source. -/
def digitVal (c : Char) : Nat := c.toNat - '0'.toNat

/-- The scanning loop of `is_valid_ipv4` (ip_utils).  `acc` is the value of
the current segment so far, `chCnt` the number of its digits, `segments` the
number of completed segments.  The `[]` case is the `'\0'` iteration of the
C loop followed by the final `return segments == 4`. -/
def validLoop : List Char → Nat → Nat → Nat → Bool
  | [], acc, chCnt, segments =>
    if chCnt = 0 then false
    else if segments + 1 > 4 then false
    else if acc > 255 then false
    else decide (segments + 1 = 4)
  | c :: rest, acc, chCnt, segments =>
    if c = '.' then
      if chCnt = 0 then false
      else if segments + 1 > 4 then false
      else if acc > 255 then false
      else validLoop rest 0 0 (segments + 1)
    else if c.isDigit then
      if chCnt + 1 > 3 then false
      else validLoop rest (acc * 10 + digitVal c) (chCnt + 1) segments
    else false

/-- `is_valid_ipv4` from ip_utils: strict dotted-quad validation. -/
def is_valid_ipv4 (ip : List Char) : Bool :=
  if ip.length < 7 ∨ ip.length > 15 then false
  else validLoop ip 0 0 0

/- ─────────────────────── ip_utils: extract_first_ipv4 ─────────────────────── -/

/-- Remove trailing `'.'` characters (the in-place cleanup of `candidate`). -/
def dropTrailingDots (l : List Char) : List Char :=
  (l.reverse.dropWhile (fun c => c = '.')).reverse

/-- Skip leading `'.'` characters (the `clean_start` pointer advance). -/
def dropLeadingDots (l : List Char) : List Char :=
  l.dropWhile (fun c => c = '.')

/-- One candidate inspection of `extract_first_ipv4`: given the maximal run
`span` of digits/dots starting at the first digit, the length gate, the dot
cleanup and the `is_valid_ipv4` check. -/
def inspectSpan (span : List Char) : Option (List Char) :=
  if 7 ≤ span.length ∧ span.length ≤ 15 then
    let clean := dropLeadingDots (dropTrailingDots span)
    if clean ≠ [] ∧ is_valid_ipv4 clean then some clean else none
  else none

/-- The outer `while (*p)` scanning loop of `extract_first_ipv4`, with fuel
(each iteration consumes at least one character, so `raw.length + 1` fuel is
always enough). -/
def extractLoop : Nat → List Char → Option (List Char)
  | 0, _ => none
  | fuel + 1, l =>
    let l1 := l.dropWhile (fun c => !c.isDigit)
    match l1 with
    | [] => none
    | _ :: _ =>
      let span := l1.takeWhile (fun c => c.isDigit || c = '.')
      let rest := l1.drop span.length
      match inspectSpan span with
      | some ip => some ip
      | none =>
        match rest with
        | [] => none
        | _ :: rest1 => extractLoop fuel rest1

/-- `extract_first_ipv4` from ip_utils. -/
def extract_first_ipv4 (raw : List Char) : Option (List Char) :=
  extractLoop (raw.length + 1) raw

/- ─────────── spec-level characterisation of a dotted-quad segment ─────────── -/

/-- Numeric value of a digit string (most significant digit first). -/
def segVal (s : List Char) : Nat := s.foldl (fun a c => a * 10 + digitVal c) 0

/-- A well-formed dotted-quad segment: 1–3 digits, value at most 255. -/
def segOk (s : List Char) : Prop :=
  s ≠ [] ∧ s.length ≤ 3 ∧ (∀ c ∈ s, c.isDigit = true) ∧ segVal s ≤ 255

/-- `dotSegs k l`: `l` is exactly `k` well-formed segments separated by dots. -/
def dotSegs : Nat → List Char → Prop
  | 0, _ => False
  | 1, l => segOk l
  | k + 2, l => ∃ s rest, l = s ++ '.' :: rest ∧ segOk s ∧ dotSegs (k + 1) rest

/- ───────── RaceCoordinator: shared race state of the IP getter ───────── -/

/-- The shared race state of `get_public_ip_multithreaded`: the
`atomic_bool done` and the `char *winner` slot (NULL = `none`), guarded by
`mtx` for the claim. -/
structure RaceState where
  done : Bool
  winner : Option (List Char)
deriving DecidableEq, Repr

def RaceState.start : RaceState := ⟨false, none⟩

/-- The mutex-protected claim section of `worker`
(`pthread_mutex_lock; if (!*arg->winner) { *arg->winner = ip;
atomic_store(arg->done, true); ... }`), as one atomic step.  Returns whether
this caller won, and the new shared state. -/
def tryClaim (s : RaceState) (cand : List Char) : Bool × RaceState :=
  if s.winner.isNone then (true, ⟨true, some cand⟩) else (false, s)

/-- A serialisation of any number of `tryClaim` calls: because every claim
runs under the single mutex, any concurrent execution performs its claims in
some total order, which is the order of this list. -/
def runClaims (s : RaceState) : List (List Char) → List Bool × RaceState
  | [] => ([], s)
  | c :: cs =>
    let p := tryClaim s c
    let q := runClaims p.2 cs
    (p.1 :: q.1, q.2)

/- ───────────────── WorkerTask: the worker retry loop ───────────────── -/

/-- Control point of a worker inside its retry loop.  `checkDone` is the top
of the `for` loop (loop bound test plus the `atomic_load(done)` check);
`fetching` is the `get_url_body` + `extract_first_ipv4` section; `claim` is
the mutex-protected claim; `retryCheck` is the `maybe_retry` label.
`succeeded`/`exhausted`/`stopped` are the terminal states. -/
inductive Phase where
  | checkDone
  | fetching
  | claim (ip : List Char)
  | retryCheck
  | succeeded (ip : List Char)
  | exhausted
  | stopped
deriving DecidableEq, Repr

def Phase.terminal : Phase → Bool
  | succeeded _ => true
  | exhausted => true
  | stopped => true
  | _ => false

/-- One worker's state: current attempt number and control point. -/
structure WState where
  attempt : Nat
  phase : Phase
deriving DecidableEq, Repr

def WState.start : WState := ⟨1, .checkDone⟩

/-- Observable worker events: starting the fetch of an attempt, and the
`sleep_ms(THREAD_TASK_RETRY_TIME_MS)` inter-attempt delay. -/
inductive WEv where
  | fetch (attempt : Nat)
  | sleep
deriving DecidableEq, Repr

/-- One atomic segment of the `worker` loop of
`get_public_ip_multithreaded.c`.  `maxA` is `MAX_THREAD_GET_ATTEMPTS`, `fr
a` the raw body returned by `get_url_body` on this worker's attempt `a`
(`none` = transport failure).  Terminal phases are absorbing (the thread has
returned). -/
def stepW (maxA : Nat) (fr : Nat → Option (List Char)) (rs : RaceState) (w : WState) :
    RaceState × WState × Option WEv :=
  match w.phase with
  | .checkDone =>
    if w.attempt > maxA then (rs, ⟨w.attempt, .exhausted⟩, none)
    else if rs.done then (rs, ⟨w.attempt, .stopped⟩, none)
    else (rs, ⟨w.attempt, .fetching⟩, none)
  | .fetching =>
    match fr w.attempt with
    | none => (rs, ⟨w.attempt, .retryCheck⟩, some (.fetch w.attempt))
    | some raw =>
      match extract_first_ipv4 raw with
      | none => (rs, ⟨w.attempt, .retryCheck⟩, some (.fetch w.attempt))
      | some ip => (rs, ⟨w.attempt, .claim ip⟩, some (.fetch w.attempt))
  | .claim ip =>
    let p := tryClaim rs ip
    if p.1 then (p.2, ⟨w.attempt, .succeeded ip⟩, none)
    else (p.2, ⟨w.attempt, .retryCheck⟩, none)
  | .retryCheck =>
    if w.attempt < maxA && !rs.done
    then (rs, ⟨w.attempt + 1, .checkDone⟩, some .sleep)
    else (rs, ⟨w.attempt + 1, .checkDone⟩, none)
  | _ => (rs, w, none)

/- ───────────────── WorkerPool: the interleaved race ───────────────── -/

/-- Global state of one race: the shared `RaceState` and `n` workers. -/
structure GState where
  shared : RaceState
  n : Nat
  ws : Nat → WState

def GState.start (n : Nat) : GState := ⟨RaceState.start, n, fun _ => WState.start⟩

/-- Let worker `i` run its next atomic segment (`oracle i a` is the raw body
for worker `i`'s attempt `a`).  Out-of-range indices do nothing. -/
def stepG (maxA : Nat) (oracle : Nat → Nat → Option (List Char)) (gs : GState) (i : Nat) :
    GState × Option (Nat × WEv) :=
  if i < gs.n then
    let p := stepW maxA (oracle i) gs.shared (gs.ws i)
    (⟨p.1, gs.n, fun j => if j = i then p.2.1 else gs.ws j⟩,
      p.2.2.map (fun e => (i, e)))
  else (gs, none)

/-- Run a schedule of worker segments, collecting the event trace. -/
def runG (maxA : Nat) (oracle : Nat → Nat → Option (List Char)) (gs : GState) :
    List Nat → GState × List (Nat × WEv)
  | [] => (gs, [])
  | i :: sched =>
    let p := stepG maxA oracle gs i
    let q := runG maxA oracle p.1 sched
    (q.1, p.2.toList ++ q.2)

/-- Every launched worker has reached a terminal state. -/
def allTerminal (gs : GState) : Prop := ∀ i < gs.n, (gs.ws i).phase.terminal = true

/-- `get_public_ip_multithreaded(urls, n)`: returns `NULL` immediately on an
empty URL list without creating any thread or touching any shared state;
otherwise launches one worker per URL, lets them interleave as `sched`
dictates, and returns the winner slot.  Also exposes the final global state
and the event trace for stating properties. -/
def get_public_ip_multithreaded (maxA : Nat) (oracle : Nat → Nat → Option (List Char))
    (urls : List (List Char)) (sched : List Nat) :
    Option (List Char) × GState × List (Nat × WEv) :=
  if urls.isEmpty then (none, GState.start 0, [])
  else
    let p := runG maxA oracle (GState.start urls.length) sched
    (p.1.shared.winner, p.1, p.2)

/- ───────────── the pool's join loop (`pthread_join` for each i) ───────────── -/

/-- Pool state: the race plus the index of the next thread to join. -/
structure PState where
  gs : GState
  joinIdx : Nat

def PState.start (n : Nat) : PState := ⟨GState.start n, 0⟩

/-- One step of the joined system: `some i` lets worker `i` run a segment;
`none` is the pool attempting `pthread_join(tid[joinIdx])`, which completes
(and moves to the next thread) exactly when that worker has returned. -/
def stepP (maxA : Nat) (oracle : Nat → Nat → Option (List Char)) (ps : PState)
    (a : Option Nat) : PState :=
  match a with
  | some i => ⟨(stepG maxA oracle ps.gs i).1, ps.joinIdx⟩
  | none =>
    if ps.joinIdx < ps.gs.n ∧ (ps.gs.ws ps.joinIdx).phase.terminal then
      ⟨ps.gs, ps.joinIdx + 1⟩
    else ps

def runP (maxA : Nat) (oracle : Nat → Nat → Option (List Char)) (ps : PState) :
    List (Option Nat) → PState
  | [] => ps
  | a :: acts => runP maxA oracle (stepP maxA oracle ps a) acts

/- ───────── the multithreaded tasks simulator (main.c) ───────── -/

/-- `shared_data_t` of the simulator (minus the mutexes and counters that
carry no race-relevant state). -/
structure SharedData where
  result_written : Bool
  winner_thread_id : Nat
  final_result : Nat
  should_stop : Bool
deriving DecidableEq, Repr

def SharedData.start : SharedData := ⟨false, 0, 0, false⟩

/-- The mutex-protected claim of `worker_thread` (lines checking
`!shared->result_written && !shared->should_stop`, then writing
`final_result`, `winner_thread_id`, `result_written` and signalling
`should_stop`), as one atomic step. -/
def simTryClaim (sd : SharedData) (tid : Nat) (res : Nat) : Bool × SharedData :=
  if !sd.result_written && !sd.should_stop then (true, ⟨true, tid, res, true⟩)
  else (false, sd)

/-- Control point of a simulator worker: computing (inside
`simulate_heavy_computation`, which exits on duration or on observing
`should_stop`), about to run the post-computation claim section, or finished
(`data->finished = 1`); `finished` records whether this thread won. -/
inductive SimPhase where
  | working
  | claiming
  | finished (won : Bool)
deriving DecidableEq, Repr

structure SimWorker where
  thread_id : Nat
  phase : SimPhase
deriving DecidableEq, Repr

structure SimState where
  sd : SharedData
  workers : List SimWorker

def SimState.start (n : Nat) (_results : Nat → Nat) : SimState :=
  ⟨SharedData.start, (List.range n).map (fun i => ⟨i + 1, .working⟩)⟩

/-- Let simulator worker `i` advance: its computation completes (by reaching
its duration or by observing `should_stop`), or it runs the claim section
(`results i` is the `my_result` it computed) and sets its `finished` flag. -/
def simStep (results : Nat → Nat) (st : SimState) (i : Nat) : SimState :=
  match st.workers.get? i with
  | none => st
  | some w =>
    match w.phase with
    | .working => ⟨st.sd, st.workers.set i ⟨w.thread_id, .claiming⟩⟩
    | .claiming =>
      let p := simTryClaim st.sd w.thread_id (results i)
      ⟨p.2, st.workers.set i ⟨w.thread_id, .finished p.1⟩⟩
    | .finished _ => st

def runSim (results : Nat → Nat) (st : SimState) : List Nat → SimState
  | [] => st
  | i :: sched => runSim results (simStep results st i) sched

/-- Exit condition of the main thread's poll loop
(`while (!shared.result_written) nanosleep(...)`). -/
def pollExit (st : SimState) : Prop := st.sd.result_written = true

/-- A winner exists: some thread finished as the winner. -/
def simWinnerExists (st : SimState) : Prop :=
  ∃ w ∈ st.workers, w.phase = SimPhase.finished true

/-- Every simulator thread has set its `finished` flag. -/
def simAllFinished (st : SimState) : Prop :=
  ∀ w ∈ st.workers, ∃ b, w.phase = SimPhase.finished b

/- ───────────── measures and trace counters used by the claims ───────────── -/

/-- Rank of a control point (decreases along the loop body). -/
def Phase.rank : Phase → Nat
  | .checkDone => 4
  | .fetching => 3
  | .claim _ => 2
  | .retryCheck => 1
  | _ => 0

/-- Termination measure of a worker. -/
def wMeasure (maxA : Nat) (w : WState) : Nat :=
  4 * (maxA + 2 - w.attempt) + w.phase.rank

/-- Number of fetch attempts started by worker `i` in a trace. -/
def countFetch (i : Nat) (tr : List (Nat × WEv)) : Nat :=
  (tr.filter (fun p => p.1 = i && (match p.2 with | WEv.fetch _ => true | _ => false))).length

/-- 1 when the worker has not yet performed the fetch of its current
attempt (top-of-loop or fetching), 0 afterwards; used to count fetches. -/
def fetchPending (w : WState) : Nat :=
  if w.phase = .checkDone ∨ w.phase = .fetching then 1 else 0

/- ───────────────────────── reachability invariants ───────────────────────── -/

/-- Local invariant of one worker against the shared state. -/
def WOK (maxA : Nat) (rs : RaceState) (w : WState) : Prop :=
  (∀ v, w.phase = .succeeded v → rs.winner = some v) ∧
  (∀ ip, w.phase = .claim ip → is_valid_ipv4 ip = true) ∧
  (w.phase = .stopped → rs.done = true) ∧
  1 ≤ w.attempt ∧ w.attempt ≤ maxA + 1 ∧
  ((w.phase = .fetching ∨ (∃ ip, w.phase = .claim ip) ∨ w.phase = .retryCheck) →
    w.attempt ≤ maxA)

/-- Global invariant of every reachable race state: the done flag tracks the
winner slot, any stored winner is a validated IPv4 that exactly one worker
claimed, and every worker's attempt counter is in range. -/
def RaceInv (maxA : Nat) (gs : GState) : Prop :=
  gs.shared.done = gs.shared.winner.isSome ∧
  (∀ v, gs.shared.winner = some v → is_valid_ipv4 v = true) ∧
  (∀ i, WOK maxA gs.shared (gs.ws i)) ∧
  (∀ v, gs.shared.winner = some v →
    ∃ i, i < gs.n ∧ (gs.ws i).phase = .succeeded v) ∧
  (∀ i j vi vj, (gs.ws i).phase = .succeeded vi → (gs.ws j).phase = .succeeded vj →
    i = j)

/-- Invariant of every reachable simulator state: `should_stop` tracks
`result_written`, a written result belongs to a winning thread, and any
thread that set its `finished` flag witnessed a written result. -/
def SimInv (st : SimState) : Prop :=
  st.sd.should_stop = st.sd.result_written ∧
  (st.sd.result_written = true →
    ∃ j w, st.workers.get? j = some w ∧ w.phase = SimPhase.finished true) ∧
  (∀ j w, st.workers.get? j = some w → (∃ b, w.phase = SimPhase.finished b) →
    st.sd.result_written = true)

/-- Number of fetch attempts recorded by a single optional worker event. -/
def evFetch : Option WEv → Nat
  | some (WEv.fetch _) => 1
  | _ => 0

/- ═══════════════════════════════ theorems ═══════════════════════════════ -/

/- ───────────── basic facts about tryClaim and runClaims ───────────── -/

theorem tryClaim_of_some (s : RaceState) (c : List Char) (h : s.winner.isSome = true) :
    tryClaim s c = (false, s) := by
  unfold tryClaim
  simp [Option.isNone_iff_eq_none]
  intro hn
  rw [hn] at h
  simp at h

theorem runClaims_of_some (s : RaceState) (h : s.winner.isSome = true) :
    ∀ cs : List (List Char), runClaims s cs = (List.replicate cs.length false, s) := by
  intro cs
  induction cs with
  | nil => simp [runClaims]
  | cons c cs ih =>
    simp [runClaims, tryClaim_of_some s c h, ih, List.replicate_succ]

/-- C1. For every race in which one or more `tryClaim` operations are
performed (the mutex serialises them into some order, covering every
concurrent execution), exactly one of those operations returns true, all
others return false, and the stored winner is exactly the candidate passed
to the one successful operation. -/
theorem tryClaim_exactly_one_winner (cands : List (List Char)) (h : cands ≠ []) :
    (runClaims RaceState.start cands).1.count true = 1 ∧
    ∃ i : Fin cands.length,
      (runClaims RaceState.start cands).1[(i : Nat)]? = some true ∧
      (∀ j : Nat, j < cands.length → j ≠ i →
        (runClaims RaceState.start cands).1[j]? = some false) ∧
      (runClaims RaceState.start cands).2.winner = some (cands.get i) := by
  match cands, h with
  | c :: cs, _ =>
    have hfirst : tryClaim RaceState.start c = (true, ⟨true, some c⟩) := by
      simp [tryClaim, RaceState.start]
    have hrest := runClaims_of_some ⟨true, some c⟩ (by simp) cs
    have hrun : runClaims RaceState.start (c :: cs) =
        (true :: List.replicate cs.length false, ⟨true, some c⟩) := by
      simp [runClaims, hfirst, hrest]
    refine ⟨?_, ⟨⟨0, by simp⟩, ?_, ?_, ?_⟩⟩
    · simp [hrun, List.count_cons, List.count_replicate]
    · simp [hrun]
    · intro j hj hj0
      rcases j with _ | j
      · simp at hj0
      · simp only [hrun, List.getElem?_cons_succ, List.getElem?_replicate]
        have : j < cs.length := by simpa using hj
        simp [this]
    · simp [hrun]

theorem tryClaim_exactly_one_winner_witness :
    (runClaims RaceState.start [['a'], ['b'], ['c']]).1.count true = 1 ∧
    ∃ i : Fin 3,
      (runClaims RaceState.start [['a'], ['b'], ['c']]).1[(i : Nat)]? = some true ∧
      (∀ j : Nat, j < 3 → j ≠ i →
        (runClaims RaceState.start [['a'], ['b'], ['c']]).1[j]? = some false) ∧
      (runClaims RaceState.start [['a'], ['b'], ['c']]).2.winner =
        some ([['a'], ['b'], ['c']].get i) :=
  tryClaim_exactly_one_winner [['a'], ['b'], ['c']] (by simp)

/-- C8. A `tryClaim` that returns false leaves the shared race state
unchanged (both in the IP getter, where the fields are `done` and `winner`,
and in the task simulator, where they are `result_written`,
`winner_thread_id`, `final_result` and `should_stop`): the losing candidate
is never stored. -/
theorem tryClaim_lose_frame :
    (∀ (s : RaceState) (c : List Char), (tryClaim s c).1 = false →
      (tryClaim s c).2 = s ∧ (tryClaim s c).2.done = s.done ∧
      (tryClaim s c).2.winner = s.winner) ∧
    (∀ (sd : SharedData) (tid res : Nat), (simTryClaim sd tid res).1 = false →
      (simTryClaim sd tid res).2 = sd ∧
      (simTryClaim sd tid res).2.result_written = sd.result_written ∧
      (simTryClaim sd tid res).2.winner_thread_id = sd.winner_thread_id ∧
      (simTryClaim sd tid res).2.final_result = sd.final_result ∧
      (simTryClaim sd tid res).2.should_stop = sd.should_stop) := by
  constructor
  · intro s c hf
    unfold tryClaim at hf ⊢
    by_cases hw : s.winner.isNone
    · simp [hw] at hf
    · simp [hw]
  · intro sd tid res hf
    unfold simTryClaim at hf ⊢
    by_cases hw : !sd.result_written && !sd.should_stop
    · simp [hw] at hf
    · simp [hw]

theorem tryClaim_lose_frame_witness :
    ((tryClaim ⟨true, some ['a']⟩ ['b']).2 = ⟨true, some ['a']⟩ ∧
      (tryClaim ⟨true, some ['a']⟩ ['b']).2.done = true ∧
      (tryClaim ⟨true, some ['a']⟩ ['b']).2.winner = some ['a']) ∧
    ((simTryClaim ⟨true, 3, 7, true⟩ 4 9).2 = ⟨true, 3, 7, true⟩ ∧
      (simTryClaim ⟨true, 3, 7, true⟩ 4 9).2.result_written = true ∧
      (simTryClaim ⟨true, 3, 7, true⟩ 4 9).2.winner_thread_id = 3 ∧
      (simTryClaim ⟨true, 3, 7, true⟩ 4 9).2.final_result = 7 ∧
      (simTryClaim ⟨true, 3, 7, true⟩ 4 9).2.should_stop = true) :=
  ⟨tryClaim_lose_frame.1 ⟨true, some ['a']⟩ ['b'] (by decide),
   tryClaim_lose_frame.2 ⟨true, 3, 7, true⟩ 4 9 (by decide)⟩

/-- C9. Called with an empty endpoint list, the race returns no winner
immediately: no worker is launched, no event happens, and the shared race
state is never mutated. -/
theorem race_empty_endpoints (maxA : Nat) (oracle : Nat → Nat → Option (List Char))
    (sched : List Nat) :
    get_public_ip_multithreaded maxA oracle [] sched = (none, GState.start 0, []) ∧
    (get_public_ip_multithreaded maxA oracle [] sched).2.1.shared = RaceState.start ∧
    (get_public_ip_multithreaded maxA oracle [] sched).2.1.n = 0 ∧
    (get_public_ip_multithreaded maxA oracle [] sched).2.2 = [] :=
  ⟨rfl, rfl, rfl, rfl⟩

/- ───────────── frame and monotonicity facts about the race steps ───────────── -/

theorem stepW_terminal_id (maxA : Nat) (fr : Nat → Option (List Char)) (rs : RaceState)
    (w : WState) (h : w.phase.terminal = true) : stepW maxA fr rs w = (rs, w, none) := by
  rcases hp : w.phase with _ | _ | ip | _ | v | _ | _ <;>
    simp [hp, Phase.terminal] at h <;> simp [stepW, hp]

theorem stepG_n (maxA : Nat) (oracle : Nat → Nat → Option (List Char)) (gs : GState)
    (i : Nat) : (stepG maxA oracle gs i).1.n = gs.n := by
  unfold stepG
  by_cases hi : i < gs.n <;> simp [hi]

theorem runG_n (maxA : Nat) (oracle : Nat → Nat → Option (List Char)) (gs : GState)
    (sched : List Nat) : (runG maxA oracle gs sched).1.n = gs.n := by
  induction sched generalizing gs with
  | nil => simp [runG]
  | cons i sched ih => simp [runG, ih, stepG_n]

theorem stepG_shared_frozen (maxA : Nat) (oracle : Nat → Nat → Option (List Char))
    (gs : GState) (i : Nat) (h : gs.shared.winner.isSome = true) :
    (stepG maxA oracle gs i).1.shared = gs.shared := by
  unfold stepG
  by_cases hi : i < gs.n
  · rcases hp : (gs.ws i).phase with _ | _ | ip | _ | v | _ | _ <;>
      simp [hi, stepW, hp]
    · by_cases hd : gs.shared.done <;> simp [hd] <;> split <;> simp
    · rcases hr : oracle i (gs.ws i).attempt with _ | raw
      · simp
      · simp
        rcases he : extract_first_ipv4 raw with _ | ip <;> simp
    · simp [tryClaim_of_some _ _ h]
    · split <;> simp
  · simp [hi]

theorem runG_shared_frozen (maxA : Nat) (oracle : Nat → Nat → Option (List Char))
    (gs : GState) (sched : List Nat) (h : gs.shared.winner.isSome = true) :
    (runG maxA oracle gs sched).1.shared = gs.shared := by
  induction sched generalizing gs with
  | nil => simp [runG]
  | cons i sched ih =>
    simp only [runG]
    rw [ih _ (by rw [stepG_shared_frozen maxA oracle gs i h]; exact h)]
    exact stepG_shared_frozen maxA oracle gs i h

theorem stepG_doneIffWinner (maxA : Nat) (oracle : Nat → Nat → Option (List Char))
    (gs : GState) (i : Nat) (h : gs.shared.done = gs.shared.winner.isSome) :
    (stepG maxA oracle gs i).1.shared.done =
      (stepG maxA oracle gs i).1.shared.winner.isSome := by
  unfold stepG
  by_cases hi : i < gs.n
  · rcases hp : (gs.ws i).phase with _ | _ | ip | _ | v | _ | _ <;>
      simp [hi, stepW, hp] <;> try exact h
    · split <;> (try split) <;> simp [h]
    · rcases hr : oracle i (gs.ws i).attempt with _ | raw
      · simp [h]
      · simp
        rcases he : extract_first_ipv4 raw with _ | ip <;> simp [h]
    · unfold tryClaim
      by_cases hw : gs.shared.winner.isNone <;> simp [hw, h]
    · split <;> simp [h]
  · simp [hi, h]

theorem runG_doneIffWinner (maxA : Nat) (oracle : Nat → Nat → Option (List Char))
    (gs : GState) (sched : List Nat) (h : gs.shared.done = gs.shared.winner.isSome) :
    (runG maxA oracle gs sched).1.shared.done =
      (runG maxA oracle gs sched).1.shared.winner.isSome := by
  induction sched generalizing gs with
  | nil => simpa [runG] using h
  | cons i sched ih => simp only [runG]; exact ih _ (stepG_doneIffWinner maxA oracle gs i h)

/-- C2. In every reachable state of a race, if the done flag is true then
the winner slot is non-empty, and neither `done` nor `winner` changes under
any further execution: the shared state is literally frozen.  (That `winner`
is never observable partially written is inherent in the embedding: the
mutex-protected write of `winner`+`done` is a single atomic step.) -/
theorem race_done_winner_immutable (maxA : Nat) (oracle : Nat → Nat → Option (List Char))
    (n : Nat) (sched sched' : List Nat)
    (h : (runG maxA oracle (GState.start n) sched).1.shared.done = true) :
    (runG maxA oracle (GState.start n) sched).1.shared.winner.isSome = true ∧
    (runG maxA oracle (runG maxA oracle (GState.start n) sched).1 sched').1.shared =
      (runG maxA oracle (GState.start n) sched).1.shared := by
  have hiff := runG_doneIffWinner maxA oracle (GState.start n) sched rfl
  rw [h] at hiff
  exact ⟨hiff.symm, runG_shared_frozen _ _ _ _ hiff.symm⟩

theorem race_done_winner_immutable_witness :
    (runG 5 (fun _ _ => some ('x' :: "10.0.0.1".toList)) (GState.start 1) [0, 0, 0]).1.shared.winner.isSome = true ∧
    (runG 5 (fun _ _ => some ('x' :: "10.0.0.1".toList))
        (runG 5 (fun _ _ => some ('x' :: "10.0.0.1".toList)) (GState.start 1) [0, 0, 0]).1
        [0, 0, 0, 0]).1.shared =
      (runG 5 (fun _ _ => some ('x' :: "10.0.0.1".toList)) (GState.start 1) [0, 0, 0]).1.shared :=
  race_done_winner_immutable 5 (fun _ _ => some ('x' :: "10.0.0.1".toList)) 1 [0, 0, 0] [0, 0, 0, 0]
    (by decide)

/- ───────────────────── the pool join loop (C3) ───────────────────── -/

theorem stepG_preserves_terminal (maxA : Nat) (oracle : Nat → Nat → Option (List Char))
    (gs : GState) (i k : Nat) (h : (gs.ws k).phase.terminal = true) :
    ((stepG maxA oracle gs i).1.ws k).phase.terminal = true := by
  unfold stepG
  by_cases hi : i < gs.n
  · simp only [hi, if_true]
    by_cases hk : k = i
    · subst hk
      rw [stepW_terminal_id maxA (oracle k) gs.shared (gs.ws k) h]
      simpa using h
    · simpa [hk] using h
  · simpa [hi] using h

theorem stepP_some (maxA : Nat) (oracle : Nat → Nat → Option (List Char)) (ps : PState)
    (i : Nat) : stepP maxA oracle ps (some i) = ⟨(stepG maxA oracle ps.gs i).1, ps.joinIdx⟩ :=
  rfl

theorem stepP_none (maxA : Nat) (oracle : Nat → Nat → Option (List Char)) (ps : PState) :
    stepP maxA oracle ps none =
      if ps.joinIdx < ps.gs.n ∧ (ps.gs.ws ps.joinIdx).phase.terminal then
        ⟨ps.gs, ps.joinIdx + 1⟩ else ps :=
  rfl

theorem stepP_n (maxA : Nat) (oracle : Nat → Nat → Option (List Char)) (ps : PState)
    (a : Option Nat) : (stepP maxA oracle ps a).gs.n = ps.gs.n := by
  rcases a with _ | i
  · rw [stepP_none]
    split <;> simp
  · simp [stepP_some, stepG_n]

theorem runP_n (maxA : Nat) (oracle : Nat → Nat → Option (List Char)) (ps : PState)
    (acts : List (Option Nat)) : (runP maxA oracle ps acts).gs.n = ps.gs.n := by
  induction acts generalizing ps with
  | nil => simp [runP]
  | cons a acts ih => simp [runP, ih, stepP_n]

theorem runP_joined_terminal (maxA : Nat) (oracle : Nat → Nat → Option (List Char))
    (acts : List (Option Nat)) : ∀ ps : PState,
    (∀ k, k < ps.joinIdx → (ps.gs.ws k).phase.terminal = true) →
    ∀ k, k < (runP maxA oracle ps acts).joinIdx →
      ((runP maxA oracle ps acts).gs.ws k).phase.terminal = true := by
  induction acts with
  | nil => intro ps h k hk; simpa [runP] using h k (by simpa [runP] using hk)
  | cons a acts ih =>
    intro ps h
    simp only [runP]
    apply ih
    rcases a with _ | i
    · rw [stepP_none]
      split
      · rename_i hg
        intro k hk
        have hk2 : k < ps.joinIdx + 1 := hk
        rcases Nat.lt_succ_iff_lt_or_eq.mp hk2 with hk' | hk'
        · exact h k hk'
        · subst hk'; exact hg.2
      · exact h
    · intro k hk
      rw [stepP_some] at hk ⊢
      exact stepG_preserves_terminal maxA oracle ps.gs i k (h k hk)

/-- C3. When the pool's join loop has joined every launched worker (which is
exactly when `race()` returns), every worker has reached a terminal state —
`pthread_join` on thread `i` completes only once worker `i`'s loop has
exited, so no running or orphaned worker remains. -/
theorem pool_joins_all_workers (maxA : Nat) (oracle : Nat → Nat → Option (List Char))
    (n : Nat) (acts : List (Option Nat))
    (h : (runP maxA oracle (PState.start n) acts).gs.n ≤
      (runP maxA oracle (PState.start n) acts).joinIdx) :
    allTerminal (runP maxA oracle (PState.start n) acts).gs := by
  intro i hi
  exact runP_joined_terminal maxA oracle acts (PState.start n) (by simp [PState.start]) i
    (lt_of_lt_of_le hi h)

theorem pool_joins_all_workers_witness :
    allTerminal (runP 1 (fun _ _ => none) (PState.start 1)
      [some 0, some 0, some 0, some 0, none]).gs :=
  pool_joins_all_workers 1 (fun _ _ => none) 1 [some 0, some 0, some 0, some 0, none]
    (by decide)

/- ───────────── no wasted work once the done flag is set (C4) ───────────── -/

theorem stepG_done_mono (maxA : Nat) (oracle : Nat → Nat → Option (List Char))
    (gs : GState) (i : Nat) (h : gs.shared.done = true) :
    (stepG maxA oracle gs i).1.shared.done = true := by
  unfold stepG
  by_cases hi : i < gs.n
  · rcases hp : (gs.ws i).phase with _ | _ | ip | _ | v | _ | _ <;>
      simp [hi, stepW, hp] <;> try exact h
    · split <;> (try split) <;> simp [h]
    · rcases hr : oracle i (gs.ws i).attempt with _ | raw
      · simp [h]
      · simp
        rcases he : extract_first_ipv4 raw with _ | ip <;> simp [h]
    · unfold tryClaim
      by_cases hw : gs.shared.winner.isNone <;> simp [hw, h]
    · split <;> simp [h]
  · simp [hi, h]

/-- C4. Once the done flag is set, no worker begins a new fetch attempt:
(1) a worker at the top of its loop (within the attempt bound) that observes
`done` transitions to `Stopped` and exits without fetching or touching the
shared state; (2) the only way into the fetching section is a top-of-loop
check that observed `done == false`, so a fetch in progress was already in
flight when the winner claimed; (3) a fetch event only arises from the
fetching section of the current attempt; (4) the done flag is monotone, so
once set it stays set for every later step. -/
theorem no_fetch_after_done :
    (∀ (maxA : Nat) (fr : Nat → Option (List Char)) (rs : RaceState) (w : WState),
      w.phase = .checkDone → w.attempt ≤ maxA → rs.done = true →
      stepW maxA fr rs w = (rs, ⟨w.attempt, .stopped⟩, none)) ∧
    (∀ (maxA : Nat) (fr : Nat → Option (List Char)) (rs : RaceState) (w : WState),
      (stepW maxA fr rs w).2.1.phase = .fetching →
      w.phase = .checkDone ∧ rs.done = false ∧ (stepW maxA fr rs w).1 = rs) ∧
    (∀ (maxA : Nat) (fr : Nat → Option (List Char)) (rs : RaceState) (w : WState) (a : Nat),
      (stepW maxA fr rs w).2.2 = some (WEv.fetch a) →
      w.phase = .fetching ∧ a = w.attempt) ∧
    (∀ (maxA : Nat) (oracle : Nat → Nat → Option (List Char)) (gs : GState) (i : Nat),
      gs.shared.done = true → (stepG maxA oracle gs i).1.shared.done = true) := by
  refine ⟨?_, ?_, ?_, fun maxA oracle gs i h => stepG_done_mono maxA oracle gs i h⟩
  · intro maxA fr rs w hp ha hd
    simp [stepW, hp, Nat.not_lt.mpr ha, hd]
  · intro maxA fr rs w hf
    rcases hp : w.phase with _ | _ | ip | _ | v | _ | _ <;> simp [stepW, hp] at hf ⊢
    · by_cases h1 : w.attempt > maxA
      · simp [h1] at hf
      · by_cases h2 : rs.done = true
        · simp [h1, h2] at hf
        · simp at h2
          simp [h1, h2]
    · rcases hr : fr w.attempt with _ | raw
      · simp [hr] at hf
      · simp [hr] at hf
        rcases he : extract_first_ipv4 raw with _ | ip <;> simp [he] at hf
    · rcases hc : tryClaim rs ip with ⟨b, rs'⟩
      rcases b with _ | _ <;> simp [hc] at hf
    · split at hf <;> simp at hf
  · intro maxA fr rs w a hf
    rcases hp : w.phase with _ | _ | ip | _ | v | _ | _ <;> simp [stepW, hp] at hf ⊢
    · split at hf
      · simp at hf
      · split at hf <;> simp at hf
    · rcases hr : fr w.attempt with _ | raw
      · simp [hr] at hf
        omega
      · simp [hr] at hf
        rcases he : extract_first_ipv4 raw with _ | ip <;> simp [he] at hf <;> omega
    · rcases hc : tryClaim rs ip with ⟨b, rs'⟩
      rcases b with _ | _ <;> simp [hc] at hf
    · split at hf <;> simp at hf

theorem no_fetch_after_done_witness :
    (stepW 5 (fun _ => none) ⟨true, some ['a']⟩ ⟨2, .checkDone⟩ =
      (⟨true, some ['a']⟩, ⟨2, .stopped⟩, none)) ∧
    ((⟨1, Phase.checkDone⟩ : WState).phase = .checkDone ∧ RaceState.start.done = false ∧
      (stepW 5 (fun _ => none) RaceState.start ⟨1, .checkDone⟩).1 = RaceState.start) ∧
    ((⟨1, Phase.fetching⟩ : WState).phase = .fetching ∧ 1 = (⟨1, Phase.fetching⟩ : WState).attempt) ∧
    (stepG 5 (fun _ _ => none) ⟨⟨true, some ['a']⟩, 1, fun _ => WState.start⟩ 0).1.shared.done = true :=
  ⟨no_fetch_after_done.1 5 (fun _ => none) ⟨true, some ['a']⟩ ⟨2, .checkDone⟩ rfl (by decide) rfl,
   no_fetch_after_done.2.1 5 (fun _ => none) RaceState.start ⟨1, .checkDone⟩ (by decide),
   no_fetch_after_done.2.2.1 5 (fun _ => none) RaceState.start ⟨1, .fetching⟩ 1 (by decide),
   no_fetch_after_done.2.2.2 5 (fun _ _ => none) ⟨⟨true, some ['a']⟩, 1, fun _ => WState.start⟩ 0 rfl⟩

/- ───────────── every extracted candidate passes is_valid_ipv4 ───────────── -/

theorem inspectSpan_valid (span ip : List Char) (h : inspectSpan span = some ip) :
    is_valid_ipv4 ip = true := by
  unfold inspectSpan at h
  simp only [ne_eq] at h
  split at h
  · split at h
    · rename_i hc
      simp at h
      rw [← h]
      exact hc.2
    · simp at h
  · simp at h

theorem extractLoop_valid : ∀ (fuel : Nat) (l ip : List Char),
    extractLoop fuel l = some ip → is_valid_ipv4 ip = true := by
  intro fuel
  induction fuel with
  | zero => intro l ip h; simp [extractLoop] at h
  | succ fuel ih =>
    intro l ip h
    simp only [extractLoop] at h
    rcases hl1 : l.dropWhile (fun c => !c.isDigit) with _ | ⟨c, l1t⟩ <;> rw [hl1] at h
    · simp at h
    · rcases hins : inspectSpan ((c :: l1t).takeWhile (fun c => c.isDigit || c = '.'))
        with _ | ip' <;> rw [hins] at h
      · rcases hrest : (c :: l1t).drop
            ((c :: l1t).takeWhile (fun c => c.isDigit || c = '.')).length
          with _ | ⟨d, rest1⟩ <;> rw [hrest] at h
        · simp at h
        · exact ih rest1 ip h
      · simp at h
        rw [← h]
        exact inspectSpan_valid _ _ hins

theorem extract_valid (raw ip : List Char) (h : extract_first_ipv4 raw = some ip) :
    is_valid_ipv4 ip = true :=
  extractLoop_valid (raw.length + 1) raw ip h

/- ───────────── the global race invariant and its preservation ───────────── -/

theorem WOK_start (maxA : Nat) (rs : RaceState) : WOK maxA rs WState.start := by
  refine ⟨?_, ?_, ?_, ?_, ?_, ?_⟩ <;> simp [WState.start] <;> omega

theorem RaceInv_start (maxA n : Nat) : RaceInv maxA (GState.start n) := by
  refine ⟨rfl, ?_, fun i => WOK_start maxA _, ?_, ?_⟩ <;>
    simp [GState.start, RaceState.start, WState.start]

theorem RaceInv_set_nonsucc (maxA : Nat) (gs : GState) (i : Nat) (w' : WState)
    (h : RaceInv maxA gs) (hW : WOK maxA gs.shared w')
    (hns : ∀ v, w'.phase ≠ Phase.succeeded v)
    (hos : ∀ v, (gs.ws i).phase ≠ Phase.succeeded v) :
    RaceInv maxA ⟨gs.shared, gs.n, fun j => if j = i then w' else gs.ws j⟩ := by
  obtain ⟨hA, hB, hC, hD, hE⟩ := h
  refine ⟨hA, hB, ?_, ?_, ?_⟩
  · intro j
    by_cases hj : j = i
    · subst hj; simpa using hW
    · simpa [hj] using hC j
  · intro v hv
    obtain ⟨k, hk, hks⟩ := hD v hv
    have hki : k ≠ i := fun he => hos v (he ▸ hks)
    exact ⟨k, hk, by simpa [hki] using hks⟩
  · intro j k vj vk hj hk
    by_cases hji : j = i
    · subst hji; simp at hj; exact absurd hj (hns vj)
    · by_cases hki : k = i
      · subst hki; simp at hk; exact absurd hk (hns vk)
      · simp [hji, hki] at hj hk
        exact hE j k vj vk hj hk

theorem stepG_eq (maxA : Nat) (oracle : Nat → Nat → Option (List Char)) (gs : GState)
    (i : Nat) (hi : i < gs.n) :
    (stepG maxA oracle gs i).1 =
      ⟨(stepW maxA (oracle i) gs.shared (gs.ws i)).1, gs.n,
        fun j => if j = i then (stepW maxA (oracle i) gs.shared (gs.ws i)).2.1
          else gs.ws j⟩ := by
  simp [stepG, hi]

theorem stepG_RaceInv (maxA : Nat) (oracle : Nat → Nat → Option (List Char)) (gs : GState)
    (i : Nat) (h : RaceInv maxA gs) : RaceInv maxA (stepG maxA oracle gs i).1 := by
  by_cases hi : i < gs.n
  swap
  · unfold stepG; simpa [hi] using h
  rw [stepG_eq maxA oracle gs i hi]
  obtain ⟨hA, hB, hC, hD, hE⟩ := h
  obtain ⟨w1, w2, w3, w4, w5, w6⟩ := hC i
  rcases hp : (gs.ws i).phase with _ | _ | ip | _ | v | _ | _
  · -- checkDone
    by_cases h1 : (gs.ws i).attempt > maxA
    · have hst : stepW maxA (oracle i) gs.shared (gs.ws i) =
          (gs.shared, ⟨(gs.ws i).attempt, .exhausted⟩, none) := by simp [stepW, hp, h1]
      rw [hst]
      dsimp only
      exact RaceInv_set_nonsucc maxA gs i _ ⟨hA, hB, hC, hD, hE⟩
        ⟨by simp, by simp, by simp, w4, w5, by simp⟩ (by simp) (by simp [hp])
    · by_cases h2 : gs.shared.done = true
      · have hst : stepW maxA (oracle i) gs.shared (gs.ws i) =
            (gs.shared, ⟨(gs.ws i).attempt, .stopped⟩, none) := by simp [stepW, hp, h1, h2]
        rw [hst]
        dsimp only
        exact RaceInv_set_nonsucc maxA gs i _ ⟨hA, hB, hC, hD, hE⟩
          ⟨by simp, by simp, fun _ => h2, w4, w5, by simp⟩ (by simp) (by simp [hp])
      · have h2' : gs.shared.done = false := by simpa using h2
        have hst : stepW maxA (oracle i) gs.shared (gs.ws i) =
            (gs.shared, ⟨(gs.ws i).attempt, .fetching⟩, none) := by
          simp [stepW, hp, h1, h2']
        rw [hst]
        dsimp only
        exact RaceInv_set_nonsucc maxA gs i _ ⟨hA, hB, hC, hD, hE⟩
          ⟨by simp, by simp, by simp, w4, w5,
            fun _ => by show (gs.ws i).attempt ≤ maxA; omega⟩ (by simp) (by simp [hp])
  · -- fetching
    have hatt : (gs.ws i).attempt ≤ maxA := w6 (Or.inl hp)
    rcases hr : oracle i (gs.ws i).attempt with _ | raw
    · have hst : stepW maxA (oracle i) gs.shared (gs.ws i) =
          (gs.shared, ⟨(gs.ws i).attempt, .retryCheck⟩, some (.fetch (gs.ws i).attempt)) := by
        simp [stepW, hp, hr]
      rw [hst]
      dsimp only
      exact RaceInv_set_nonsucc maxA gs i _ ⟨hA, hB, hC, hD, hE⟩
        ⟨by simp, by simp, by simp, w4, w5, fun _ => hatt⟩ (by simp) (by simp [hp])
    · rcases he : extract_first_ipv4 raw with _ | ip
      · have hst : stepW maxA (oracle i) gs.shared (gs.ws i) =
            (gs.shared, ⟨(gs.ws i).attempt, .retryCheck⟩, some (.fetch (gs.ws i).attempt)) := by
          simp [stepW, hp, hr, he]
        rw [hst]
        dsimp only
        exact RaceInv_set_nonsucc maxA gs i _ ⟨hA, hB, hC, hD, hE⟩
          ⟨by simp, by simp, by simp, w4, w5, fun _ => hatt⟩ (by simp) (by simp [hp])
      · have hst : stepW maxA (oracle i) gs.shared (gs.ws i) =
            (gs.shared, ⟨(gs.ws i).attempt, .claim ip⟩, some (.fetch (gs.ws i).attempt)) := by
          simp [stepW, hp, hr, he]
        rw [hst]
        dsimp only
        refine RaceInv_set_nonsucc maxA gs i _ ⟨hA, hB, hC, hD, hE⟩
          ⟨by simp, ?_, by simp, w4, w5, fun _ => hatt⟩ (by simp) (by simp [hp])
        intro ip' hip'
        simp at hip'
        rw [← hip']
        exact extract_valid raw ip he
  · -- claim ip
    have hatt : (gs.ws i).attempt ≤ maxA := w6 (Or.inr (Or.inl ⟨ip, hp⟩))
    by_cases hw : gs.shared.winner.isNone = true
    · -- the claim succeeds
      have hwn : gs.shared.winner = none := Option.isNone_iff_eq_none.mp hw
      have hst : stepW maxA (oracle i) gs.shared (gs.ws i) =
          (⟨true, some ip⟩, ⟨(gs.ws i).attempt, .succeeded ip⟩, none) := by
        simp [stepW, hp, tryClaim, hw]
      rw [hst]
      dsimp only
      have hvalid : is_valid_ipv4 ip = true := w2 ip hp
      refine ⟨rfl, ?_, ?_, ?_, ?_⟩
      · intro v hv
        simp at hv
        rw [← hv]; exact hvalid
      · intro j
        dsimp only
        by_cases hj : j = i
        · subst hj
          rw [if_pos rfl]
          refine ⟨?_, by simp, by simp, w4, w5, by simp⟩
          intro v hv
          simp at hv ⊢
          exact hv
        · rw [if_neg hj]
          obtain ⟨u1, u2, u3, u4, u5, u6⟩ := hC j
          refine ⟨?_, u2, fun _ => rfl, u4, u5, u6⟩
          intro v hv
          have := u1 v hv
          rw [hwn] at this
          cases this
      · intro v hv
        simp at hv
        exact ⟨i, hi, by simp [hv]⟩
      · intro j k vj vk hj hk
        by_cases hji : j = i
        · by_cases hki : k = i
          · rw [hji, hki]
          · simp [hki] at hk
            have := (hC k).1 vk hk
            rw [hwn] at this
            cases this
        · simp [hji] at hj
          have := (hC j).1 vj hj
          rw [hwn] at this
          cases this
    · -- a winner already exists: the claim fails
      have hst : stepW maxA (oracle i) gs.shared (gs.ws i) =
          (gs.shared, ⟨(gs.ws i).attempt, .retryCheck⟩, none) := by
        simp [stepW, hp, tryClaim, hw]
      rw [hst]
      dsimp only
      exact RaceInv_set_nonsucc maxA gs i _ ⟨hA, hB, hC, hD, hE⟩
        ⟨by simp, by simp, by simp, w4, w5, fun _ => hatt⟩ (by simp) (by simp [hp])
  · -- retryCheck
    have hatt : (gs.ws i).attempt ≤ maxA := w6 (Or.inr (Or.inr hp))
    have hst : stepW maxA (oracle i) gs.shared (gs.ws i) =
        (gs.shared, ⟨(gs.ws i).attempt + 1, .checkDone⟩,
          if (gs.ws i).attempt < maxA && !gs.shared.done then some .sleep else none) := by
      simp only [stepW, hp]
      split <;> rename_i hc <;> simp [hc]
    rw [hst]
    dsimp only
    exact RaceInv_set_nonsucc maxA gs i _ ⟨hA, hB, hC, hD, hE⟩
      ⟨by simp, by simp, by simp, by show 1 ≤ (gs.ws i).attempt + 1; omega,
        by show (gs.ws i).attempt + 1 ≤ maxA + 1; omega, by simp⟩ (by simp) (by simp [hp])
  all_goals {
    -- terminal phases: the step is a no-op
    have hterm : (gs.ws i).phase.terminal = true := by simp [hp, Phase.terminal]
    rw [stepW_terminal_id maxA (oracle i) gs.shared (gs.ws i) hterm]
    have hws : (fun j => if j = i then gs.ws i else gs.ws j) = gs.ws :=
      funext fun j => by split <;> simp_all
    rw [hws]
    exact ⟨hA, hB, fun j => (hC j), hD, hE⟩
  }

theorem runG_RaceInv (maxA : Nat) (oracle : Nat → Nat → Option (List Char))
    (sched : List Nat) : ∀ gs : GState, RaceInv maxA gs →
    RaceInv maxA (runG maxA oracle gs sched).1 := by
  induction sched with
  | nil => intro gs h; simpa [runG] using h
  | cons i sched ih =>
    intro gs h
    simp only [runG]
    exact ih _ (stepG_RaceInv maxA oracle gs i h)

/- ───────────── the race outcome seen by the caller (C5) ───────────── -/

/-- C5. `race()` returns a winner value exactly when some worker's claim
succeeded, and returns "no winner" (`NULL`, i.e. `(zero, false)`) exactly
when every launched worker exhausted its attempts without a successful
claim.  The return value carries no per-attempt information: individual
fetch/extract failures are never surfaced to the caller. -/
theorem race_outcome_iff (maxA : Nat) (oracle : Nat → Nat → Option (List Char))
    (urls : List (List Char)) (sched : List Nat)
    (hT : allTerminal (get_public_ip_multithreaded maxA oracle urls sched).2.1) :
    (∀ v, (get_public_ip_multithreaded maxA oracle urls sched).1 = some v ↔
      ∃ i, i < (get_public_ip_multithreaded maxA oracle urls sched).2.1.n ∧
        ((get_public_ip_multithreaded maxA oracle urls sched).2.1.ws i).phase =
          Phase.succeeded v) ∧
    ((get_public_ip_multithreaded maxA oracle urls sched).1 = none ↔
      ∀ i, i < (get_public_ip_multithreaded maxA oracle urls sched).2.1.n →
        ((get_public_ip_multithreaded maxA oracle urls sched).2.1.ws i).phase =
          Phase.exhausted) := by
  rcases urls with _ | ⟨u, us⟩
  · constructor
    · intro v
      simp [get_public_ip_multithreaded, GState.start]
    · simp [get_public_ip_multithreaded, GState.start]
  · have hne : ((u :: us : List (List Char)).isEmpty) = false := rfl
    have hr : get_public_ip_multithreaded maxA oracle (u :: us) sched =
        ((runG maxA oracle (GState.start (u :: us).length) sched).1.shared.winner,
          (runG maxA oracle (GState.start (u :: us).length) sched).1,
          (runG maxA oracle (GState.start (u :: us).length) sched).2) := by
      simp [get_public_ip_multithreaded, hne]
    rw [hr] at hT ⊢
    dsimp only at hT ⊢
    obtain ⟨hA, hB, hC, hD, hE⟩ :=
      runG_RaceInv maxA oracle sched (GState.start (u :: us).length)
        (RaceInv_start maxA (u :: us).length)
    generalize hG : (runG maxA oracle (GState.start (u :: us).length) sched).1 = gs
      at hT hA hB hC hD hE ⊢
    constructor
    · intro v
      constructor
      · intro hv
        exact hD v hv
      · rintro ⟨i, hin, hsucc⟩
        exact (hC i).1 v hsucc
    · constructor
      · intro hnone i hin
        have ht := hT i hin
        rcases hph : (gs.ws i).phase with _ | _ | ip | _ | v | _ | _ <;>
          rw [hph] at ht <;> simp [Phase.terminal] at ht
        · have := (hC i).1 v hph
          rw [hnone] at this
          cases this
        · have hdone := (hC i).2.2.1 hph
          rw [hA, hnone] at hdone
          simp at hdone
      · intro hall
        rcases hwv : gs.shared.winner with _ | v
        · rfl
        · obtain ⟨i, hin, hsucc⟩ := hD v hwv
          rw [hall i hin] at hsucc
          cases hsucc

theorem race_outcome_iff_witness :
    ((∀ v, (get_public_ip_multithreaded 1 (fun _ _ => none) [['u']] [0, 0, 0, 0]).1 = some v ↔
      ∃ i, i < (get_public_ip_multithreaded 1 (fun _ _ => none) [['u']] [0, 0, 0, 0]).2.1.n ∧
        ((get_public_ip_multithreaded 1 (fun _ _ => none) [['u']] [0, 0, 0, 0]).2.1.ws i).phase =
          Phase.succeeded v) ∧
    ((get_public_ip_multithreaded 1 (fun _ _ => none) [['u']] [0, 0, 0, 0]).1 = none ↔
      ∀ i, i < (get_public_ip_multithreaded 1 (fun _ _ => none) [['u']] [0, 0, 0, 0]).2.1.n →
        ((get_public_ip_multithreaded 1 (fun _ _ => none) [['u']] [0, 0, 0, 0]).2.1.ws i).phase =
          Phase.exhausted)) :=
  race_outcome_iff 1 (fun _ _ => none) [['u']] [0, 0, 0, 0]
    (by unfold allTerminal; decide)

/- ───────────── the simulator's poll loop stop condition (C7) ───────────── -/

theorem simStep_length (results : Nat → Nat) (st : SimState) (i : Nat) :
    (simStep results st i).workers.length = st.workers.length := by
  unfold simStep
  rcases hg : st.workers.get? i with _ | w
  · rfl
  · rcases hp : w.phase with _ | _ | b <;> simp [hp]

theorem runSim_length (results : Nat → Nat) (sched : List Nat) : ∀ st : SimState,
    (runSim results st sched).workers.length = st.workers.length := by
  induction sched with
  | nil => intro st; rfl
  | cons i sched ih => intro st; simp only [runSim]; rw [ih, simStep_length]

theorem SimInv_start (n : Nat) (results : Nat → Nat) : SimInv (SimState.start n results) := by
  refine ⟨rfl, ?_, ?_⟩
  · intro h; cases h
  · intro j w hj hfin
    simp only [SimState.start] at hj
    rw [List.get?_map] at hj
    rcases hr : (List.range n).get? j with _ | m <;> rw [hr] at hj
    · cases hj
    · injection hj with hj'
      obtain ⟨b, hb⟩ := hfin
      rw [← hj'] at hb
      cases hb

theorem simStep_SimInv (results : Nat → Nat) (st : SimState) (i : Nat) (h : SimInv st) :
    SimInv (simStep results st i) := by
  obtain ⟨h1, h2, h3⟩ := h
  unfold simStep
  rcases hg : st.workers.get? i with _ | w
  · exact ⟨h1, h2, h3⟩
  have hlen : i < st.workers.length := (List.get?_eq_some.mp hg).1
  rcases hp : w.phase with _ | _ | b
  · -- the computation completes: working → claiming
    simp only [hp]
    refine ⟨h1, ?_, ?_⟩
    · intro hrw
      obtain ⟨j, w', hj, hjp⟩ := h2 hrw
      have hij : i ≠ j := by
        intro he
        rw [← he, hg] at hj
        injection hj with hj'
        rw [← hj', hp] at hjp
        cases hjp
      exact ⟨j, w', by rw [List.get?_set_ne _ _ hij]; exact hj, hjp⟩
    · intro j w' hj hfin
      by_cases hij : i = j
      · subst hij
        rw [List.get?_set_eq_of_lt _ hlen] at hj
        injection hj with hj'
        obtain ⟨b, hb⟩ := hfin
        rw [← hj'] at hb
        cases hb
      · rw [List.get?_set_ne _ _ hij] at hj
        exact h3 j w' hj hfin
  · -- the post-computation claim section
    simp only [hp]
    by_cases hc : (!st.sd.result_written && !st.sd.should_stop) = true
    · have hcl : simTryClaim st.sd w.thread_id (results i) =
          (true, ⟨true, w.thread_id, results i, true⟩) := by simp [simTryClaim, hc]
      rw [hcl]
      dsimp only
      refine ⟨rfl, ?_, fun _ _ _ _ => rfl⟩
      intro _
      exact ⟨i, ⟨w.thread_id, .finished true⟩, by rw [List.get?_set_eq_of_lt _ hlen], rfl⟩
    · have hcl : simTryClaim st.sd w.thread_id (results i) = (false, st.sd) := by
        simp [simTryClaim, hc]
      rw [hcl]
      dsimp only
      have hrw : st.sd.result_written = true := by
        rcases ha : st.sd.result_written with _ | _
        · exfalso
          apply hc
          rw [ha, h1, ha]
          rfl
        · rfl
      refine ⟨h1, ?_, fun _ _ _ _ => hrw⟩
      intro _
      obtain ⟨j, w', hj, hjp⟩ := h2 hrw
      have hij : i ≠ j := by
        intro he
        rw [← he, hg] at hj
        injection hj with hj'
        rw [← hj', hp] at hjp
        cases hjp
      exact ⟨j, w', by rw [List.get?_set_ne _ _ hij]; exact hj, hjp⟩
  · -- already finished: no-op
    simp only [hp]
    exact ⟨h1, h2, h3⟩

theorem runSim_SimInv (results : Nat → Nat) (sched : List Nat) : ∀ st : SimState,
    SimInv st → SimInv (runSim results st sched) := by
  induction sched with
  | nil => intro st h; exact h
  | cons i sched ih =>
    intro st h
    simp only [runSim]
    exact ih _ (simStep_SimInv results st i h)

/-- C7. The simulator's main thread waits by polling `result_written` at a
fixed 5 ms interval (`SIM_CHECK_INTERVAL_NS`) instead of joining/blocking,
and the poll loop's exit condition holds exactly when (a) a winner exists,
or (b) every worker has reached a terminal state and no winner exists —
case (b) being unreachable here, since with at least one launched worker a
fully finished race always has a winner. -/
theorem sim_poll_stop_condition (n : Nat) (results : Nat → Nat) (sched : List Nat)
    (hn : 1 ≤ n) :
    pollExit (runSim results (SimState.start n results) sched) ↔
      (simWinnerExists (runSim results (SimState.start n results) sched) ∨
        (simAllFinished (runSim results (SimState.start n results) sched) ∧
          ¬ simWinnerExists (runSim results (SimState.start n results) sched))) := by
  obtain ⟨h1, h2, h3⟩ := runSim_SimInv results sched (SimState.start n results)
    (SimInv_start n results)
  have hlen : (runSim results (SimState.start n results) sched).workers.length = n := by
    rw [runSim_length]
    simp [SimState.start]
  unfold pollExit simWinnerExists simAllFinished
  constructor
  · intro hp
    left
    obtain ⟨j, w, hj, hjp⟩ := h2 hp
    exact ⟨w, List.get?_mem hj, hjp⟩
  · rintro (⟨w, hw, hwp⟩ | ⟨hall, hnw⟩)
    · obtain ⟨j, hj⟩ := List.mem_iff_get?.mp hw
      exact h3 j w hj ⟨true, hwp⟩
    · rcases hg : (runSim results (SimState.start n results) sched).workers.get? 0 with _ | w0
      · rw [List.get?_eq_none] at hg
        omega
      · exact h3 0 w0 hg (hall w0 (List.get?_mem hg))

theorem sim_poll_stop_condition_witness :
    pollExit (runSim (fun i => 100 + i) (SimState.start 2 (fun i => 100 + i)) [0, 1, 0, 1]) ↔
      (simWinnerExists (runSim (fun i => 100 + i) (SimState.start 2 (fun i => 100 + i)) [0, 1, 0, 1]) ∨
        (simAllFinished (runSim (fun i => 100 + i) (SimState.start 2 (fun i => 100 + i)) [0, 1, 0, 1]) ∧
          ¬ simWinnerExists (runSim (fun i => 100 + i) (SimState.start 2 (fun i => 100 + i)) [0, 1, 0, 1]))) :=
  sim_poll_stop_condition 2 (fun i => 100 + i) [0, 1, 0, 1] (by decide)

/- ───────── per-worker termination and fetch bound (C6) ───────── -/

theorem stepW_measure (maxA : Nat) (fr : Nat → Option (List Char)) (rs : RaceState)
    (w : WState) (hW : WOK maxA rs w) (hnt : w.phase.terminal = false) :
    wMeasure maxA (stepW maxA fr rs w).2.1 < wMeasure maxA w := by
  obtain ⟨w1, w2, w3, w4, w5, w6⟩ := hW
  rcases hp : w.phase with _ | _ | ip | _ | v | _ | _ <;>
    rw [hp] at hnt <;> simp [Phase.terminal] at hnt
  · by_cases h1 : w.attempt > maxA
    · simp [stepW, hp, h1, wMeasure, Phase.rank]
    · by_cases h2 : rs.done = true
      · simp [stepW, hp, h1, h2, wMeasure, Phase.rank]
      · have h2' : rs.done = false := by simpa using h2
        simp [stepW, hp, h1, h2', wMeasure, Phase.rank]
  · rcases hr : fr w.attempt with _ | raw
    · simp [stepW, hp, hr, wMeasure, Phase.rank]
    · rcases he : extract_first_ipv4 raw with _ | ip <;>
        simp [stepW, hp, hr, he, wMeasure, Phase.rank]
  · rcases hc : (tryClaim rs ip).1 with _ | _ <;>
      simp [stepW, hp, hc, wMeasure, Phase.rank]
  · have hatt : w.attempt ≤ maxA := w6 (Or.inr (Or.inr hp))
    have hkey : ∀ e : Option WEv,
        wMeasure maxA (⟨w.attempt + 1, Phase.checkDone⟩ : WState) < wMeasure maxA w := by
      intro e
      simp only [wMeasure, hp, Phase.rank]
      omega
    rcases hc : (w.attempt < maxA && !rs.done) with _ | _ <;>
      simp [stepW, hp, hc] <;> exact hkey none

theorem stepG_ws_ne (maxA : Nat) (oracle : Nat → Nat → Option (List Char)) (gs : GState)
    (i j : Nat) (hj : j ≠ i) : (stepG maxA oracle gs i).1.ws j = gs.ws j := by
  unfold stepG
  by_cases hi : i < gs.n <;> simp [hi, hj]

theorem stepG_ws_self (maxA : Nat) (oracle : Nat → Nat → Option (List Char)) (gs : GState)
    (i : Nat) (hi : i < gs.n) :
    (stepG maxA oracle gs i).1.ws i = (stepW maxA (oracle i) gs.shared (gs.ws i)).2.1 := by
  simp [stepG, hi]

theorem runG_terminal_of_count (maxA : Nat) (oracle : Nat → Nat → Option (List Char))
    (i : Nat) : ∀ (sched : List Nat) (gs : GState), RaceInv maxA gs → i < gs.n →
    ((gs.ws i).phase.terminal = true ∨ wMeasure maxA (gs.ws i) ≤ sched.count i) →
    ((runG maxA oracle gs sched).1.ws i).phase.terminal = true := by
  intro sched
  induction sched with
  | nil =>
    intro gs hInv hi h
    rcases h with h | h
    · simpa [runG] using h
    · exfalso
      have h5 := ((hInv.2.2.1) i).2.2.2.2.1
      simp [List.count_nil, wMeasure] at h
      omega
  | cons j sched ih =>
    intro gs hInv hi h
    simp only [runG]
    apply ih _ (stepG_RaceInv maxA oracle gs j hInv) (by rw [stepG_n]; exact hi)
    by_cases hterm : (gs.ws i).phase.terminal = true
    · exact Or.inl (stepG_preserves_terminal maxA oracle gs j i hterm)
    · have hmeas := h.resolve_left hterm
      by_cases hji : j = i
      · subst hji
        rw [List.count_cons_self] at hmeas
        right
        rw [stepG_ws_self maxA oracle gs j hi]
        have hlt := stepW_measure maxA (oracle j) gs.shared (gs.ws j)
          (hInv.2.2.1 j) (by simpa using hterm)
        omega
      · right
        rw [stepG_ws_ne maxA oracle gs j i (fun he => hji he.symm)]
        rw [List.count_cons_of_ne (fun he => hji (by simpa using he.symm))] at hmeas
        exact hmeas

theorem countFetch_append (i : Nat) (a b : List (Nat × WEv)) :
    countFetch i (a ++ b) = countFetch i a + countFetch i b := by
  simp [countFetch, List.filter_append]

theorem countFetch_step (i j : Nat) (ev : Option WEv) :
    countFetch i ((ev.map (fun e => (j, e))).toList) =
      if j = i then evFetch ev else 0 := by
  rcases ev with _ | e
  · simp [countFetch, evFetch]
  · rcases e with a | _ <;> by_cases hj : j = i <;>
      simp [countFetch, evFetch, hj]

theorem runG_cons (maxA : Nat) (oracle : Nat → Nat → Option (List Char)) (gs : GState)
    (j : Nat) (sched : List Nat) :
    runG maxA oracle gs (j :: sched) =
      ((runG maxA oracle (stepG maxA oracle gs j).1 sched).1,
        (stepG maxA oracle gs j).2.toList ++
          (runG maxA oracle (stepG maxA oracle gs j).1 sched).2) :=
  rfl

theorem stepG_oob (maxA : Nat) (oracle : Nat → Nat → Option (List Char)) (gs : GState)
    (i : Nat) (hi : ¬ i < gs.n) : stepG maxA oracle gs i = (gs, none) := by
  simp [stepG, hi]

theorem stepG_ev (maxA : Nat) (oracle : Nat → Nat → Option (List Char)) (gs : GState)
    (i : Nat) (hi : i < gs.n) :
    (stepG maxA oracle gs i).2 =
      ((stepW maxA (oracle i) gs.shared (gs.ws i)).2.2).map (fun e => (i, e)) := by
  simp [stepG, hi]

theorem stepW_fetch_inv (maxA : Nat) (fr : Nat → Option (List Char)) (rs : RaceState)
    (w : WState) (hW : WOK maxA rs w) (c : Nat)
    (h1 : c + fetchPending w ≤ w.attempt)
    (h2 : w.phase.terminal = true → c ≤ maxA) :
    (c + evFetch (stepW maxA fr rs w).2.2 + fetchPending (stepW maxA fr rs w).2.1 ≤
      (stepW maxA fr rs w).2.1.attempt) ∧
    ((stepW maxA fr rs w).2.1.phase.terminal = true →
      c + evFetch (stepW maxA fr rs w).2.2 ≤ maxA) := by
  obtain ⟨w1, w2, w3, w4, w5, w6⟩ := hW
  rcases hp : w.phase with _ | _ | ip | _ | v | _ | _
  · have h1' : c + 1 ≤ w.attempt := by simpa [fetchPending, hp] using h1
    by_cases ha : w.attempt > maxA
    · simp [stepW, hp, ha, evFetch, fetchPending, Phase.terminal]
      omega
    · by_cases hd : rs.done = true
      · simp [stepW, hp, ha, hd, evFetch, fetchPending, Phase.terminal]
        omega
      · have hd' : rs.done = false := by simpa using hd
        simp [stepW, hp, ha, hd', evFetch, fetchPending, Phase.terminal]
        omega
  · have h1' : c + 1 ≤ w.attempt := by simpa [fetchPending, hp] using h1
    have hatt : w.attempt ≤ maxA := w6 (Or.inl hp)
    rcases hr : fr w.attempt with _ | raw
    · simp [stepW, hp, hr, evFetch, fetchPending, Phase.terminal]
      omega
    · rcases he : extract_first_ipv4 raw with _ | ip <;>
        simp [stepW, hp, hr, he, evFetch, fetchPending, Phase.terminal] <;> omega
  · have h1' : c ≤ w.attempt := by simpa [fetchPending, hp] using h1
    have hatt : w.attempt ≤ maxA := w6 (Or.inr (Or.inl ⟨ip, hp⟩))
    rcases hc : (tryClaim rs ip).1 with _ | _ <;>
      simp [stepW, hp, hc, evFetch, fetchPending, Phase.terminal] <;> omega
  · have h1' : c ≤ w.attempt := by simpa [fetchPending, hp] using h1
    rcases hc : (w.attempt < maxA && !rs.done) with _ | _ <;>
      simp [stepW, hp, hc, evFetch, fetchPending, Phase.terminal] <;> omega
  all_goals {
    have hterm : w.phase.terminal = true := by simp [hp, Phase.terminal]
    rw [stepW_terminal_id maxA fr rs w hterm]
    simp only [evFetch]
    exact ⟨by simpa using h1, fun _ => by simpa using h2 hterm⟩
  }

theorem runG_fetch_bound (maxA : Nat) (oracle : Nat → Nat → Option (List Char))
    (i : Nat) : ∀ (sched : List Nat) (gs : GState) (c : Nat), RaceInv maxA gs →
    c + fetchPending (gs.ws i) ≤ (gs.ws i).attempt →
    ((gs.ws i).phase.terminal = true → c ≤ maxA) →
    c + countFetch i (runG maxA oracle gs sched).2 ≤ maxA := by
  intro sched
  induction sched with
  | nil =>
    intro gs c hInv h1 h2
    obtain ⟨u1, u2, u3, u4, u5, u6⟩ := hInv.2.2.1 i
    simp only [runG, countFetch, List.filter_nil, List.length_nil, Nat.add_zero]
    rcases hph : (gs.ws i).phase with _ | _ | ip | _ | v | _ | _
    · have h1' : c + 1 ≤ (gs.ws i).attempt := by simpa [fetchPending, hph] using h1
      omega
    · have h1' : c + 1 ≤ (gs.ws i).attempt := by simpa [fetchPending, hph] using h1
      have := u6 (Or.inl hph)
      omega
    · have h1' : c ≤ (gs.ws i).attempt := by simpa [fetchPending, hph] using h1
      have := u6 (Or.inr (Or.inl ⟨ip, hph⟩))
      omega
    · have h1' : c ≤ (gs.ws i).attempt := by simpa [fetchPending, hph] using h1
      have := u6 (Or.inr (Or.inr hph))
      omega
    · exact h2 (by simp [hph, Phase.terminal])
    · exact h2 (by simp [hph, Phase.terminal])
    · exact h2 (by simp [hph, Phase.terminal])
  | cons j sched ih =>
    intro gs c hInv h1 h2
    rw [runG_cons]
    by_cases hj : j < gs.n
    swap
    · rw [stepG_oob maxA oracle gs j hj]
      simpa using ih gs c hInv h1 h2
    by_cases hji : j = i
    · subst hji
      dsimp only
      rw [countFetch_append, stepG_ev maxA oracle gs j hj, countFetch_step j j _]
      simp only [if_pos rfl, if_true]
      obtain ⟨k1, k2⟩ := stepW_fetch_inv maxA (oracle j) gs.shared (gs.ws j)
        (hInv.2.2.1 j) c h1 h2
      have hrec := ih (stepG maxA oracle gs j).1 (c + evFetch (stepW maxA (oracle j) gs.shared (gs.ws j)).2.2)
        (stepG_RaceInv maxA oracle gs j hInv)
        (by rw [stepG_ws_self maxA oracle gs j hj]; exact k1)
        (by rw [stepG_ws_self maxA oracle gs j hj]; exact k2)
      omega
    · dsimp only
      rw [countFetch_append, stepG_ev maxA oracle gs j hj, countFetch_step i j _]
      simp only [if_neg hji]
      have hrec := ih (stepG maxA oracle gs j).1 c
        (stepG_RaceInv maxA oracle gs j hInv)
        (by rw [stepG_ws_ne maxA oracle gs j i (fun he => hji he.symm)]; exact h1)
        (by rw [stepG_ws_ne maxA oracle gs j i (fun he => hji he.symm)]; exact h2)
      omega

/-- C6. Every worker terminates with the loop structure of the source:
(1) once a worker has been scheduled `4*attemptsMax + 8` segments it has
reached a terminal state, for any fetch outcomes and interleaving;
(2) a worker performs at most `attemptsMax` fetch attempts in any run;
(3) a worker at `maybe_retry` on attempt `attemptsMax` without a successful
claim exits as `Exhausted` (and does not sleep);
(4) the attempt counter stays in the window `1..attemptsMax+1` (the loop
iterates `attempt = 1..attemptsMax`);
(5) the worker sleeps `retryDelay` only between attempts: at `maybe_retry`
with `attempt < attemptsMax` and the done flag still false;
(6) the terminal states are exactly `Succeeded`, `Exhausted`, `Stopped`. -/
theorem worker_loop_termination_structure :
    (∀ (maxA : Nat) (oracle : Nat → Nat → Option (List Char)) (n : Nat) (sched : List Nat)
      (i : Nat), i < n → 4 * maxA + 8 ≤ sched.count i →
      ((runG maxA oracle (GState.start n) sched).1.ws i).phase.terminal = true) ∧
    (∀ (maxA : Nat) (oracle : Nat → Nat → Option (List Char)) (n : Nat) (sched : List Nat)
      (i : Nat), countFetch i (runG maxA oracle (GState.start n) sched).2 ≤ maxA) ∧
    (∀ (maxA : Nat) (fr fr' : Nat → Option (List Char)) (rs : RaceState),
      (stepW maxA fr' (stepW maxA fr rs ⟨maxA, .retryCheck⟩).1
        (stepW maxA fr rs ⟨maxA, .retryCheck⟩).2.1).2.1.phase = Phase.exhausted ∧
      (stepW maxA fr rs ⟨maxA, .retryCheck⟩).2.2 = none) ∧
    (∀ (maxA : Nat) (oracle : Nat → Nat → Option (List Char)) (n : Nat) (sched : List Nat)
      (i : Nat), 1 ≤ ((runG maxA oracle (GState.start n) sched).1.ws i).attempt ∧
      ((runG maxA oracle (GState.start n) sched).1.ws i).attempt ≤ maxA + 1) ∧
    (∀ (maxA : Nat) (fr : Nat → Option (List Char)) (rs : RaceState) (w : WState),
      (stepW maxA fr rs w).2.2 = some WEv.sleep →
      w.phase = Phase.retryCheck ∧ w.attempt < maxA ∧ rs.done = false) ∧
    (∀ w : WState, w.phase.terminal = true ↔
      ((∃ v, w.phase = Phase.succeeded v) ∨ w.phase = Phase.exhausted ∨
        w.phase = Phase.stopped)) := by
  refine ⟨?_, ?_, ?_, ?_, ?_, ?_⟩
  · intro maxA oracle n sched i hin hcnt
    apply runG_terminal_of_count maxA oracle i sched (GState.start n)
      (RaceInv_start maxA n) hin
    right
    have : wMeasure maxA ((GState.start n).ws i) = 4 * maxA + 8 := by
      simp only [wMeasure, GState.start, WState.start, Phase.rank]
      omega
    omega
  · intro maxA oracle n sched i
    have := runG_fetch_bound maxA oracle i sched (GState.start n) 0
      (RaceInv_start maxA n)
      (by simp [GState.start, WState.start, fetchPending])
      (by intro h; simp [GState.start, WState.start, Phase.terminal] at h)
    omega
  · intro maxA fr fr' rs
    have e1 : stepW maxA fr rs ⟨maxA, .retryCheck⟩ =
        (rs, ⟨maxA + 1, .checkDone⟩, none) := by
      simp [stepW]
    rw [e1]
    exact ⟨by simp [stepW, Nat.lt_succ_self], rfl⟩
  · intro maxA oracle n sched i
    have hW := (runG_RaceInv maxA oracle sched (GState.start n)
      (RaceInv_start maxA n)).2.2.1 i
    exact ⟨hW.2.2.2.1, hW.2.2.2.2.1⟩
  · intro maxA fr rs w hs
    rcases hp : w.phase with _ | _ | ip | _ | v | _ | _
    · exfalso
      simp [stepW, hp] at hs
      split at hs
      · simp at hs
      · split at hs <;> simp at hs
    · exfalso
      simp [stepW, hp] at hs
      rcases hr : fr w.attempt with _ | raw
      · simp [hr] at hs
      · simp [hr] at hs
        rcases he : extract_first_ipv4 raw with _ | ip <;> simp [he] at hs
    · exfalso
      simp [stepW, hp] at hs
      rcases hc : (tryClaim rs ip).1 with _ | _ <;> simp [hc] at hs
    · refine ⟨rfl, ?_⟩
      simp only [stepW, hp] at hs
      rcases hc : (w.attempt < maxA && !rs.done) with _ | _
      · rw [hc] at hs
        simp at hs
      · rw [Bool.and_eq_true] at hc
        exact ⟨by simpa using hc.1, by simpa using hc.2⟩
    · exfalso
      simp [stepW, hp] at hs
    · exfalso
      simp [stepW, hp] at hs
    · exfalso
      simp [stepW, hp] at hs
  · intro w
    rcases hp : w.phase with _ | _ | ip | _ | v | _ | _ <;>
      simp [hp, Phase.terminal]

theorem worker_loop_termination_structure_witness :
    (((runG 1 (fun _ _ => none) (GState.start 1) (List.replicate 12 0)).1.ws 0).phase.terminal
        = true) ∧
    countFetch 0 (runG 1 (fun _ _ => none) (GState.start 1) (List.replicate 12 0)).2 ≤ 1 ∧
    ((stepW 1 (fun _ => none) (stepW 1 (fun _ => none) RaceState.start ⟨1, .retryCheck⟩).1
        (stepW 1 (fun _ => none) RaceState.start ⟨1, .retryCheck⟩).2.1).2.1.phase =
      Phase.exhausted) ∧
    (1 ≤ ((runG 1 (fun _ _ => none) (GState.start 1) (List.replicate 12 0)).1.ws 0).attempt ∧
      ((runG 1 (fun _ _ => none) (GState.start 1) (List.replicate 12 0)).1.ws 0).attempt ≤ 2) ∧
    ((⟨1, Phase.retryCheck⟩ : WState).phase = Phase.retryCheck ∧
      (⟨1, Phase.retryCheck⟩ : WState).attempt < 2 ∧ RaceState.start.done = false) ∧
    ((⟨1, Phase.exhausted⟩ : WState).phase.terminal = true ↔
      ((∃ v, (⟨1, Phase.exhausted⟩ : WState).phase = Phase.succeeded v) ∨
        (⟨1, Phase.exhausted⟩ : WState).phase = Phase.exhausted ∨
        (⟨1, Phase.exhausted⟩ : WState).phase = Phase.stopped)) :=
  ⟨worker_loop_termination_structure.1 1 (fun _ _ => none) 1 (List.replicate 12 0) 0

      (by decide) (by decide),
   worker_loop_termination_structure.2.1 1 (fun _ _ => none) 1 (List.replicate 12 0) 0,
   (worker_loop_termination_structure.2.2.1 1 (fun _ => none) (fun _ => none)
      RaceState.start).1,
   worker_loop_termination_structure.2.2.2.1 1 (fun _ _ => none) 1 (List.replicate 12 0) 0,
   worker_loop_termination_structure.2.2.2.2.1 2 (fun _ => none) RaceState.start
      ⟨1, .retryCheck⟩ (by decide),
   worker_loop_termination_structure.2.2.2.2.2 ⟨1, Phase.exhausted⟩⟩

/- ───────── characterisation of is_valid_ipv4 / extract_first_ipv4 (C10) ───────── -/

theorem segVal_aux (s : List Char) : ∀ a : Nat,
    s.foldl (fun a c => a * 10 + digitVal c) a = a * 10 ^ s.length + segVal s := by
  induction s with
  | nil => intro a; simp [segVal]
  | cons c s ih =>
    intro a
    simp only [List.foldl_cons, List.length_cons]
    rw [ih (a * 10 + digitVal c)]
    have hc : segVal (c :: s) = digitVal c * 10 ^ s.length + segVal s := by
      simp only [segVal, List.foldl_cons]
      rw [show (0 * 10 + digitVal c) = digitVal c by ring]
      exact ih (digitVal c)
    rw [hc]
    ring

theorem segVal_cons (c : Char) (s : List Char) :
    segVal (c :: s) = digitVal c * 10 ^ s.length + segVal s := by
  simp only [segVal, List.foldl_cons]
  rw [show (0 * 10 + digitVal c) = digitVal c by ring]
  exact segVal_aux s (digitVal c)

theorem validLoop_segs4 : ∀ (l : List Char) (acc cc segs : Nat), 4 ≤ segs →
    validLoop l acc cc segs = false := by
  intro l
  induction l with
  | nil =>
    intro acc cc segs h4
    simp only [validLoop]
    by_cases hcc : cc = 0
    · rw [if_pos hcc]
    · rw [if_neg hcc, if_pos (by omega : segs + 1 > 4)]
  | cons c t ih =>
    intro acc cc segs h4
    simp only [validLoop]
    by_cases hdot : c = '.'
    · rw [if_pos hdot]
      by_cases hcc : cc = 0
      · rw [if_pos hcc]
      · rw [if_neg hcc, if_pos (by omega : segs + 1 > 4)]
    · rw [if_neg hdot]
      by_cases hdig : c.isDigit
      · simp only [hdig, if_true]
        by_cases h3 : cc + 1 > 3
        · rw [if_pos h3]
        · rw [if_neg h3]
          exact ih _ _ _ h4
      · simp [hdig]

theorem dotSegs_add_two (k : Nat) (l : List Char) :
    dotSegs (k + 2) l ↔
      ∃ s rest, l = s ++ '.' :: rest ∧ segOk s ∧ dotSegs (k + 1) rest :=
  Iff.rfl

theorem validLoop_chars : ∀ (l : List Char) (acc cc segs : Nat), cc ≤ 3 → segs ≤ 3 →
    validLoop l acc cc segs = true →
    ∃ s0 : List Char,
      (∀ c ∈ s0, c.isDigit = true) ∧ 1 ≤ cc + s0.length ∧ cc + s0.length ≤ 3 ∧
      acc * 10 ^ s0.length + segVal s0 ≤ 255 ∧
      ((segs = 3 ∧ l = s0) ∨
        ∃ rest, l = s0 ++ '.' :: rest ∧ dotSegs (3 - segs) rest) := by
  intro l
  induction l with
  | nil =>
    intro acc cc segs hcc3 hsegs3 h
    simp only [validLoop] at h
    by_cases hcc : cc = 0
    · rw [if_pos hcc] at h; cases h
    · rw [if_neg hcc, if_neg (by omega : ¬ segs + 1 > 4)] at h
      by_cases hacc : acc > 255
      · rw [if_pos hacc] at h; cases h
      · rw [if_neg hacc] at h
        have hseg : segs = 3 := by
          have := of_decide_eq_true h
          omega
        refine ⟨[], by simp, by simp; omega, by simp; omega, ?_, Or.inl ⟨hseg, rfl⟩⟩
        simp [segVal]
        omega
  | cons c t ih =>
    intro acc cc segs hcc3 hsegs3 h
    simp only [validLoop] at h
    by_cases hdot : c = '.'
    · rw [if_pos hdot] at h
      by_cases hcc : cc = 0
      · rw [if_pos hcc] at h; cases h
      · rw [if_neg hcc, if_neg (by omega : ¬ segs + 1 > 4)] at h
        by_cases hacc : acc > 255
        · rw [if_pos hacc] at h; cases h
        · rw [if_neg hacc] at h
          have hs3 : segs + 1 ≤ 3 := by
            by_contra hgt
            rw [validLoop_segs4 t 0 0 (segs + 1) (by omega)] at h
            cases h
          obtain ⟨s0', hd', hl1', hl3', hv', hdisj'⟩ :=
            ih 0 0 (segs + 1) (by omega) (by omega) h
          have hseg : segOk s0' := by
            refine ⟨?_, by omega, hd', ?_⟩
            · intro he
              rw [he] at hl1'
              simp at hl1'
            · simpa using hv'
          refine ⟨[], by simp, by simp; omega, by simp; omega, by simp [segVal]; omega, ?_⟩
          refine Or.inr ⟨t, by simp [hdot], ?_⟩
          rcases segs with _ | _ | _ | s4
          · rcases hdisj' with ⟨h31, _⟩ | ⟨rest2, ht, hds⟩
            · omega
            · exact ⟨s0', rest2, ht, hseg, hds⟩
          · rcases hdisj' with ⟨h31, _⟩ | ⟨rest2, ht, hds⟩
            · omega
            · exact ⟨s0', rest2, ht, hseg, hds⟩
          · rcases hdisj' with ⟨h31, hts⟩ | ⟨rest2, ht, hds⟩
            · rw [hts]
              exact hseg
            · exact False.elim hds
          · omega
    · rw [if_neg hdot] at h
      by_cases hdig : c.isDigit
      · simp only [hdig, if_true] at h
        by_cases h3 : cc + 1 > 3
        · rw [if_pos h3] at h; cases h
        · rw [if_neg h3] at h
          obtain ⟨s0', hd', hl1', hl3', hv', hdisj'⟩ :=
            ih (acc * 10 + digitVal c) (cc + 1) segs (by omega) hsegs3 h
          refine ⟨c :: s0', ?_, ?_, ?_, ?_, ?_⟩
          · intro x hx
            rcases List.mem_cons.mp hx with hx | hx
            · subst hx; exact hdig
            · exact hd' x hx
          · simp only [List.length_cons]; omega
          · simp only [List.length_cons]; omega
          · rw [segVal_cons, List.length_cons, pow_succ]
            calc acc * (10 ^ s0'.length * 10) + (digitVal c * 10 ^ s0'.length + segVal s0')
                = (acc * 10 + digitVal c) * 10 ^ s0'.length + segVal s0' := by ring
              _ ≤ 255 := hv'
          · rcases hdisj' with ⟨hseg, ht⟩ | ⟨rest2, ht, hds⟩
            · exact Or.inl ⟨hseg, by rw [ht]⟩
            · exact Or.inr ⟨rest2, by rw [ht]; simp, hds⟩
      · simp [hdig] at h

theorem is_valid_ipv4_chars (ip : List Char) (h : is_valid_ipv4 ip = true) :
    7 ≤ ip.length ∧ ip.length ≤ 15 ∧
    ∃ s1 s2 s3 s4 : List Char,
      ip = s1 ++ '.' :: (s2 ++ '.' :: (s3 ++ '.' :: s4)) ∧
      segOk s1 ∧ segOk s2 ∧ segOk s3 ∧ segOk s4 := by
  unfold is_valid_ipv4 at h
  split at h
  · cases h
  · rename_i hlen
    push_neg at hlen
    obtain ⟨s1, hd1, hl11, hl13, hv1, hdisj⟩ :=
      validLoop_chars ip 0 0 0 (by omega) (by omega) h
    have hs1 : segOk s1 := by
      refine ⟨?_, by omega, hd1, ?_⟩
      · intro he
        rw [he] at hl11
        simp at hl11
      · simpa using hv1
    rcases hdisj with ⟨h03, _⟩ | ⟨rest, hip, hds⟩
    · omega
    · have hds3 : ∃ s rest2, rest = s ++ '.' :: rest2 ∧ segOk s ∧ dotSegs 2 rest2 := hds
      obtain ⟨s2, rest2, hrest, hs2, hds2⟩ := hds3
      have hds2' : ∃ s rest3, rest2 = s ++ '.' :: rest3 ∧ segOk s ∧ dotSegs 1 rest3 := hds2
      obtain ⟨s3, rest3, hrest2, hs3, hds1⟩ := hds2'
      have hs4 : segOk rest3 := hds1
      refine ⟨by omega, by omega, s1, s2, s3, rest3, ?_, hs1, hs2, hs3, hs4⟩
      rw [hip, hrest, hrest2]

/-- C10. Every value returned by `extract_first_ipv4` satisfies
`is_valid_ipv4`: it is exactly four dot-separated decimal segments of 1–3
digits each, every segment's value is at most 255, and the total length is
between 7 and 15 characters; consequently, whenever the race returns a
winner value it is a syntactically valid dotted-quad IPv4 string. -/
theorem extract_first_ipv4_sound :
    (∀ raw ip : List Char, extract_first_ipv4 raw = some ip →
      is_valid_ipv4 ip = true ∧ 7 ≤ ip.length ∧ ip.length ≤ 15 ∧
      ∃ s1 s2 s3 s4 : List Char,
        ip = s1 ++ '.' :: (s2 ++ '.' :: (s3 ++ '.' :: s4)) ∧
        segOk s1 ∧ segOk s2 ∧ segOk s3 ∧ segOk s4) ∧
    (∀ (maxA : Nat) (oracle : Nat → Nat → Option (List Char)) (urls : List (List Char))
      (sched : List Nat) (v : List Char),
      (get_public_ip_multithreaded maxA oracle urls sched).1 = some v →
      is_valid_ipv4 v = true) := by
  constructor
  · intro raw ip h
    have hv := extract_valid raw ip h
    obtain ⟨h7, h15, hex⟩ := is_valid_ipv4_chars ip hv
    exact ⟨hv, h7, h15, hex⟩
  · intro maxA oracle urls sched v h
    rcases urls with _ | ⟨u, us⟩
    · simp [get_public_ip_multithreaded] at h
    · have hne : ((u :: us : List (List Char)).isEmpty) = false := rfl
      simp only [get_public_ip_multithreaded, hne, Bool.false_eq_true, if_false] at h
      exact (runG_RaceInv maxA oracle sched (GState.start (u :: us).length)
        (RaceInv_start maxA (u :: us).length)).2.1 v h

theorem extract_first_ipv4_sound_witness :
    (is_valid_ipv4 ['2', '0', '3', '.', '0', '.', '1', '1', '3', '.', '7'] = true ∧
      7 ≤ ['2', '0', '3', '.', '0', '.', '1', '1', '3', '.', '7'].length ∧
      ['2', '0', '3', '.', '0', '.', '1', '1', '3', '.', '7'].length ≤ 15 ∧
      ∃ s1 s2 s3 s4 : List Char,
        ['2', '0', '3', '.', '0', '.', '1', '1', '3', '.', '7'] =
          s1 ++ '.' :: (s2 ++ '.' :: (s3 ++ '.' :: s4)) ∧
        segOk s1 ∧ segOk s2 ∧ segOk s3 ∧ segOk s4) ∧
    is_valid_ipv4
      (get_public_ip_multithreaded 5
        (fun _ _ => some ['i', 'p', ' ', '1', '.', '2', '.', '3', '.', '4'])
        [['u']] [0, 0, 0]).1.get! = true :=
  ⟨extract_first_ipv4_sound.1
      ['x', '2', '0', '3', '.', '0', '.', '1', '1', '3', '.', '7', 'y']
      ['2', '0', '3', '.', '0', '.', '1', '1', '3', '.', '7'] (by decide),
   by
    have := extract_first_ipv4_sound.2 5
      (fun _ _ => some ['i', 'p', ' ', '1', '.', '2', '.', '3', '.', '4'])
      [['u']] [0, 0, 0] ['1', '.', '2', '.', '3', '.', '4'] (by decide)
    simpa using this⟩
